import Mathlib

set_option maxRecDepth 4000

/-!
Verification of the bhttp command-line HTTP client: request-item parsing,
request assembly and response rendering.  Definitions are translated from
the current generation of the program (the main file whose imports match
go.mod); Go standard-library helpers the program relies on
(`http.Header`, `url.Values`, `url.QueryEscape`, base64) are embedded
explicitly, and file reading is modelled by an explicit file-system map
together with a log of the files read.
-/

/-- A parsed request item: `key`, separator `sep` and value `val`
(the Go struct `keyVal`). -/
structure KeyVal where
  key : String
  sep : String
  val : String
deriving DecidableEq, Repr

/-- All the possible key-pair separators, most ambiguous first
(the Go variable `separators`). -/
def separators : List (List Char) :=
  [[':', '=', '@'], [':', '='], [':'], ['=', '='], ['=', '@'], ['='], ['@']]

/-- The candidate separator matching at the start of `cs`, if any: the
first element of `separators` that is a prefix of `cs` (the inner loop of
Go `parseKeyVal`, which tests `strings.HasPrefix(s[i:], sep)` in list
order). -/
def findSep (cs : List Char) : Option (List Char) :=
  separators.find? (fun sep => sep.isPrefixOf cs)

/-- The scanning loop of Go `parseKeyVal`: `key` is the accumulated key
buffer and `wasBackslash` the escape flag.  A non-escaped backslash makes
the next character literal; at every non-escaped position the separator
candidates are tried in order; the value is the verbatim remainder after
the matched separator. -/
def parseKeyValAux (key : List Char) (wasBackslash : Bool) :
    List Char → Except String KeyVal
  | [] => .error "no key-pair separator found"
  | c :: rest =>
    if c = '\\' && !wasBackslash then
      parseKeyValAux key true rest
    else if wasBackslash then
      parseKeyValAux (key ++ [c]) false rest
    else
      match findSep (c :: rest) with
      | some sep =>
        if key = [] then .error "empty key"
        else .ok ⟨String.mk key, String.mk sep, String.mk ((c :: rest).drop sep.length)⟩
      | none => parseKeyValAux (key ++ [c]) false rest

/-- Go `parseKeyVal`. -/
def parseKeyVal (s : String) : Except String KeyVal :=
  parseKeyValAux [] false s.data

/-- Go `strings.TrimSuffix`: remove one trailing occurrence of `suffix`
when present. -/
def trimSuffix (s suffix : String) : String :=
  if suffix.data.isSuffixOf s.data then s.dropRight suffix.length else s

/-- Go `isDataSendingSep`: the separator, with one trailing `@` removed,
is `:=`, `=` or empty. -/
def isDataSendingSep (sep : String) : Bool :=
  let sep := trimSuffix sep "@"
  sep == ":=" || sep == "=" || sep == ""

/-- The method-inference loop of Go `parseArgs`: `method` is the
explicitly supplied method (`""` when none was given); each request item
with a data-sending separator switches an unset method to POST, and an
unset method finally defaults to GET. -/
def inferMethod (method : String) (kvs : List KeyVal) : String :=
  let m := kvs.foldl (fun m kv => if isDataSendingSep kv.sep && m == "" then "POST" else m) method
  if m == "" then "GET" else m

/-- Valid header-field byte (Go net/textproto `validHeaderFieldByte`):
alphanumerics and the RFC 7230 token specials. -/
def validHeaderFieldByte (c : Char) : Bool :=
  c.isAlphanum || c = '!' || c = '#' || c = '$' || c = '%' || c = '&' ||
  c = '\'' || c = '*' || c = '+' || c = '-' || c = '.' || c = '^' ||
  c = '_' || c = Char.ofNat 96 || c = '|' || c = '~'

/-- One step of MIME header-key canonicalisation: upper-case a letter in
`upper` position, lower-case it otherwise. -/
def canonicalChar (upper : Bool) (c : Char) : Char :=
  if upper && 'a' ≤ c && c ≤ 'z' then Char.ofNat (c.toNat - 32)
  else if !upper && 'A' ≤ c && c ≤ 'Z' then Char.ofNat (c.toNat + 32)
  else c

/-- Go net/textproto `CanonicalMIMEHeaderKey`: keys holding an invalid
byte are returned unchanged; otherwise the first letter and every letter
following a hyphen are upper-cased and all other letters lower-cased. -/
def canonicalMIMEHeaderKey (s : String) : String :=
  if s.data.all validHeaderFieldByte then
    String.mk ((s.data.foldl
      (fun acc c => (acc.1 ++ [canonicalChar acc.2 c], c = '-')) (([] : List Char), true)).1)
  else s

/-- Append `v` to the entry of `k`, or add a new entry at the end
(the behaviour of appending to a `map[string][]string` slice). -/
def addToAssoc (h : List (String × List String)) (k v : String) :
    List (String × List String) :=
  match h with
  | [] => [(k, [v])]
  | (k', vs) :: rest =>
    if k' = k then (k', vs ++ [v]) :: rest else (k', vs) :: addToAssoc rest k v

/-- Replace the entry of `k` by the single value `v`, or add it
(the behaviour of assigning a fresh one-element slice). -/
def setAssoc (h : List (String × List String)) (k v : String) :
    List (String × List String) :=
  match h with
  | [] => [(k, [v])]
  | (k', vs) :: rest =>
    if k' = k then (k, [v]) :: rest else (k', vs) :: setAssoc rest k v

/-- The value slice stored under `k` (empty when absent). -/
def lookupAssoc (h : List (String × List String)) (k : String) : List String :=
  match h with
  | [] => []
  | (k', vs) :: rest => if k' = k then vs else lookupAssoc rest k

/-- Go `http.Header`: canonical key to ordered values, modelled as an
association list (the Go map's iteration order never matters here). -/
abbrev Header := List (String × List String)

/-- Go `http.Header.Add`. -/
def headerAdd (h : Header) (key val : String) : Header :=
  addToAssoc h (canonicalMIMEHeaderKey key) val

/-- Go `http.Header.Set`. -/
def headerSet (h : Header) (key val : String) : Header :=
  setAssoc h (canonicalMIMEHeaderKey key) val

/-- Go `http.Header.Get`: the first value for the canonical key,
or `""`. -/
def headerGet (h : Header) (key : String) : String :=
  match lookupAssoc h (canonicalMIMEHeaderKey key) with
  | [] => ""
  | v :: _ => v

/-- Go `url.Values`: plain key to ordered values. -/
abbrev Values := List (String × List String)

/-- UTF-8 encoding of one character as byte values (Go strings are byte
sequences, and escaping works byte by byte). -/
def utf8Bytes (c : Char) : List Nat :=
  let n := c.toNat
  if n < 128 then [n]
  else if n < 2048 then [192 + n / 64, 128 + n % 64]
  else if n < 65536 then [224 + n / 4096, 128 + n / 64 % 64, 128 + n % 64]
  else [240 + n / 262144, 128 + n / 4096 % 64, 128 + n / 64 % 64, 128 + n % 64]

/-- The UTF-8 bytes of a string. -/
def strBytes (s : String) : List Nat :=
  s.data.flatMap utf8Bytes

/-- Upper-case hexadecimal digit. -/
def upperHexDigit (n : Nat) : Char :=
  if n < 10 then Char.ofNat (48 + n) else Char.ofNat (55 + n)

/-- Go net/url `shouldEscape` for query encoding: alphanumerics and
`-` `_` `.` `~` stay unescaped. -/
def shouldEscapeQuery (b : Nat) : Bool :=
  !(65 ≤ b && b ≤ 90 || 97 ≤ b && b ≤ 122 || 48 ≤ b && b ≤ 57 ||
    b = 45 || b = 95 || b = 46 || b = 126)

/-- Query escaping of one byte: space becomes `+`, other escaped bytes
become `%XX`. -/
def queryEscapeByte (b : Nat) : List Char :=
  if b = 32 then ['+']
  else if shouldEscapeQuery b then ['%', upperHexDigit (b / 16), upperHexDigit (b % 16)]
  else [Char.ofNat b]

/-- Go `url.QueryEscape`. -/
def queryEscape (s : String) : String :=
  String.mk ((strBytes s).foldr (fun b acc => queryEscapeByte b ++ acc) [])

/-- Lexicographic order on character lists (the order `sort.Strings`
uses: Go compares strings byte-wise, and UTF-8 preserves code-point
order). -/
def lexLt : List Char → List Char → Bool
  | [], [] => false
  | [], _ :: _ => true
  | _ :: _, [] => false
  | c :: cs, d :: ds => if c < d then true else if d < c then false else lexLt cs ds

/-- Insert an entry into a key-sorted list of entries. -/
def insertSortedKey (x : String × List String) :
    List (String × List String) → List (String × List String)
  | [] => [x]
  | y :: ys => if lexLt x.1.data y.1.data then x :: y :: ys else y :: insertSortedKey x ys

/-- Sort entries by key (Go `url.Values.Encode` sorts the map keys with
`sort.Strings`; the keys of an accumulated `Values` are distinct, so any
sort gives the same result). -/
def sortByKey (vs : List (String × List String)) : List (String × List String) :=
  vs.foldr insertSortedKey []

/-- Go `url.Values.Encode`: keys sorted, every key and value
query-escaped, pairs joined with `&`. -/
def valuesEncode (vs : Values) : String :=
  String.intercalate "&"
    ((sortByKey vs).flatMap (fun kv =>
      kv.2.map (fun v => queryEscape kv.1 ++ "=" ++ queryEscape v)))

example : parseKeyVal "k:=@v" = .ok ⟨"k", ":=@", "v"⟩ := rfl
example : parseKeyVal "k==v" = .ok ⟨"k", "==", "v"⟩ := rfl
example : parseKeyVal "a\\:b=c" = .ok ⟨"a:b", "=", "c"⟩ := rfl
example : parseKeyVal "x" = .error "no key-pair separator found" := rfl
example : parseKeyVal "=v" = .error "empty key" := rfl
example : canonicalMIMEHeaderKey "content-type" = "Content-Type" := rfl
example : inferMethod "" [⟨"a", "@", "b"⟩] = "POST" := rfl
example : inferMethod "" [⟨"a", ":", "b"⟩] = "GET" := rfl
example : valuesEncode [("j1", ["123"]), ("j2", ["", "another"])] = "j1=123&j2=&j2=another" := rfl
example : valuesEncode [("b", ["2"]), ("a", ["1 x"])] = "a=1+x&b=2" := rfl

/-- JSON whitespace. -/
def isJsonWs (c : Char) : Bool :=
  c = ' ' || c = '\t' || c = '\n' || c = '\r'

/-- Drop leading JSON whitespace. -/
def skipWs : List Char → List Char
  | [] => []
  | c :: rest => if isJsonWs c then skipWs rest else c :: rest

mutual

/-- JSON values; strings and numbers keep their raw source text (the
indenter copies value bytes through unmodified).  Arrays and objects use
dedicated list types so that all recursion over values is structural. -/
inductive JsonVal where
  | null
  | bool (b : Bool)
  | num (raw : String)
  | str (raw : String)
  | arr (elems : JsonList)
  | obj (members : JsonMembers)
deriving Repr

/-- A list of JSON array elements. -/
inductive JsonList where
  | nil
  | cons (v : JsonVal) (rest : JsonList)
deriving Repr

/-- A list of JSON object members. -/
inductive JsonMembers where
  | nil
  | cons (k : String) (v : JsonVal) (rest : JsonMembers)
deriving Repr

end

/-- Consume a JSON string body after the opening quote; returns the raw
content (escape sequences kept verbatim) and the rest of the input after
the closing quote. -/
def scanStringBody : List Char → Option (List Char × List Char)
  | [] => none
  | '"' :: rest => some ([], rest)
  | '\\' :: d :: rest =>
    match scanStringBody rest with
    | some (raw, rest') => some ('\\' :: d :: raw, rest')
    | none => none
  | c :: rest =>
    match scanStringBody rest with
    | some (raw, rest') => some (c :: raw, rest')
    | none => none

/-- Characters that can occur in a JSON number literal. -/
def isNumChar (c : Char) : Bool :=
  c.isDigit || c = '-' || c = '+' || c = '.' || c = 'e' || c = 'E'

/-- All-digit non-empty character list. -/
def validDigits (cs : List Char) : Bool :=
  !cs.isEmpty && cs.all Char.isDigit

/-- Exponent part of a JSON number. -/
def validExp : List Char → Bool
  | 'e' :: rest =>
    (match rest with
     | '+' :: r => validDigits r
     | '-' :: r => validDigits r
     | r => validDigits r)
  | 'E' :: rest =>
    (match rest with
     | '+' :: r => validDigits r
     | '-' :: r => validDigits r
     | r => validDigits r)
  | _ => false

/-- Optional fraction and exponent parts of a JSON number. -/
def validFracExp : List Char → Bool
  | [] => true
  | '.' :: rest =>
    let ds := rest.takeWhile Char.isDigit
    !ds.isEmpty &&
      (let r := rest.dropWhile Char.isDigit
       r.isEmpty || validExp r)
  | cs => validExp cs

/-- JSON number grammar: optional minus, integer part without leading
zeros, optional fraction and exponent. -/
def validNum (cs : List Char) : Bool :=
  let cs := match cs with | '-' :: r => r | r => r
  match cs with
  | [] => false
  | '0' :: rest => validFracExp rest
  | c :: rest => c.isDigit && validFracExp (rest.dropWhile Char.isDigit)

/-- Strip a literal prefix, returning the rest on success. -/
def stripPfx (pfx cs : List Char) : Option (List Char) :=
  if pfx.isPrefixOf cs then some (cs.drop pfx.length) else none

mutual

/-- Fuel-indexed recursive-descent JSON value parser (the explicit model
of the JSON scanning the program delegates to its JSON libraries);
returns the parsed value and the unconsumed rest. -/
def parseVal : Nat → List Char → Option (JsonVal × List Char)
  | 0, _ => none
  | fuel + 1, cs0 =>
    let cs := skipWs cs0
    match stripPfx ['n', 'u', 'l', 'l'] cs with
    | some rest => some (.null, rest)
    | none =>
    match stripPfx ['t', 'r', 'u', 'e'] cs with
    | some rest => some (.bool true, rest)
    | none =>
    match stripPfx ['f', 'a', 'l', 's', 'e'] cs with
    | some rest => some (.bool false, rest)
    | none =>
    match cs with
    | [] => none
    | c :: rest =>
      if c = '"' then
        match scanStringBody rest with
        | some (raw, rest') => some (.str (String.mk raw), rest')
        | none => none
      else if c = '[' then
        match skipWs rest with
        | ']' :: rest' => some (.arr .nil, rest')
        | _ =>
          match parseElems fuel rest with
          | some (xs, rest') => some (.arr xs, rest')
          | none => none
      else if c = '{' then
        match skipWs rest with
        | '}' :: rest' => some (.obj .nil, rest')
        | _ =>
          match parseMembers fuel rest with
          | some (ms, rest') => some (.obj ms, rest')
          | none => none
      else
        let raw := (c :: rest).takeWhile isNumChar
        if validNum raw then some (.num (String.mk raw), (c :: rest).drop raw.length)
        else none

/-- Comma-separated array elements up to the closing bracket. -/
def parseElems : Nat → List Char → Option (JsonList × List Char)
  | 0, _ => none
  | fuel + 1, cs =>
    match parseVal fuel cs with
    | none => none
    | some (v, rest) =>
      match skipWs rest with
      | ',' :: rest' =>
        match parseElems fuel rest' with
        | some (xs, rest'') => some (.cons v xs, rest'')
        | none => none
      | ']' :: rest' => some (.cons v .nil, rest')
      | _ => none

/-- Comma-separated object members up to the closing brace. -/
def parseMembers : Nat → List Char → Option (JsonMembers × List Char)
  | 0, _ => none
  | fuel + 1, cs =>
    match skipWs cs with
    | '"' :: rest =>
      (match scanStringBody rest with
       | none => none
       | some (key, rest') =>
         match skipWs rest' with
         | ':' :: rest'' =>
           (match parseVal fuel rest'' with
            | none => none
            | some (v, rest3) =>
              match skipWs rest3 with
              | ',' :: rest4 =>
                (match parseMembers fuel rest4 with
                 | some (ms, rest5) => some (.cons (String.mk key) v ms, rest5)
                 | none => none)
              | '}' :: rest4 => some (.cons (String.mk key) v .nil, rest4)
              | _ => none)
         | _ => none)
    | _ => none

end

/-- Parse a whole JSON document: one value, possibly surrounded by
whitespace. -/
def parseJson (s : String) : Option JsonVal :=
  match parseVal (2 * s.data.length + 2) s.data with
  | some (v, rest) => if (skipWs rest).isEmpty then some v else none
  | none => none

/-- Whether a string is a valid JSON document (the check
`json.Unmarshal` performs on `:=` values). -/
def jsonValid (s : String) : Bool :=
  (parseJson s).isSome

/-- A newline followed by `depth` tabs: the line break the indenter
writes with empty prefix and tab indent. -/
def nlIndent (depth : Nat) : String :=
  "\n" ++ String.mk (List.replicate depth '\t')

mutual

/-- Tab-indented printing of a JSON value at nesting depth `d` (the
layout `Indent(dst, src, "", "\t")` produces: empty composites stay
`[]`/`\x7b\x7d`, member keys get `key: value` with one space, every
element on its own line). -/
def printVal (d : Nat) : JsonVal → String
  | .null => "null"
  | .bool true => "true"
  | .bool false => "false"
  | .num raw => raw
  | .str raw => "\"" ++ raw ++ "\""
  | .arr .nil => "[]"
  | .arr (.cons x xs) =>
    "[" ++ nlIndent (d + 1) ++ printVal (d + 1) x ++ printElems (d + 1) xs ++ nlIndent d ++ "]"
  | .obj .nil => "\x7b\x7d"
  | .obj (.cons k v ms) =>
    "\x7b" ++ nlIndent (d + 1) ++ "\"" ++ k ++ "\": " ++ printVal (d + 1) v ++
      printMembers (d + 1) ms ++ nlIndent d ++ "\x7d"

/-- Remaining array elements, each preceded by comma and line break. -/
def printElems (d : Nat) : JsonList → String
  | .nil => ""
  | .cons y ys => "," ++ nlIndent d ++ printVal d y ++ printElems d ys

/-- Remaining object members, each preceded by comma and line break. -/
def printMembers (d : Nat) : JsonMembers → String
  | .nil => ""
  | .cons k v ys => "," ++ nlIndent d ++ "\"" ++ k ++ "\": " ++ printVal d v ++ printMembers d ys

end

mutual

/-- Compact printing of a JSON value (what `json.Compact` leaves of raw
message bytes when the accumulated object is marshalled). -/
def printCompact : JsonVal → String
  | .null => "null"
  | .bool true => "true"
  | .bool false => "false"
  | .num raw => raw
  | .str raw => "\"" ++ raw ++ "\""
  | .arr .nil => "[]"
  | .arr (.cons x xs) => "[" ++ printCompact x ++ printCompactElems xs ++ "]"
  | .obj .nil => "\x7b\x7d"
  | .obj (.cons k v ms) =>
    "\x7b" ++ "\"" ++ k ++ "\":" ++ printCompact v ++ printCompactMembers ms ++ "\x7d"

/-- Remaining compact array elements. -/
def printCompactElems : JsonList → String
  | .nil => ""
  | .cons y ys => "," ++ printCompact y ++ printCompactElems ys

/-- Remaining compact object members. -/
def printCompactMembers : JsonMembers → String
  | .nil => ""
  | .cons k v ys => "," ++ "\"" ++ k ++ "\":" ++ printCompact v ++ printCompactMembers ys

end

example : parseJson " \x7b\"a\": [1, 2]\x7d\n\n" =
    some (.obj (.cons "a" (.arr (.cons (.num "1") (.cons (.num "2") .nil))) .nil)) := rfl
example : printVal 0 (.obj (.cons "a" (.arr (.cons (.num "1") (.cons (.num "2") .nil))) .nil)) =
    "\x7b\n\t\"a\": [\n\t\t1,\n\t\t2\n\t]\n\x7d" := rfl
example : jsonValid "[true, null, -1.5e3, \"x\"]" = true := rfl
example : jsonValid "01" = false := rfl
example : jsonValid "\x7b\"a\":1" = false := rfl
example : printCompact (.obj (.cons "a" (.arr (.cons (.num "1") (.cons (.num "2") .nil))) .nil)) =
    "\x7b\"a\":[1,2]\x7d" := rfl

/-- A value stored in the accumulated JSON object: `=` items store the
plain string, `:=` items store validated raw JSON
(Go `json.RawMessage`). -/
inductive JVal where
  | str (s : String)
  | raw (s : String)
deriving DecidableEq, Repr

/-- The accumulated JSON object (Go `map[string]interface\x7b\x7d`),
modelled as an association list with map-assignment semantics. -/
abbrev JsonMap := List (String × JVal)

/-- Go map assignment `m[k] = v`: replace the entry of `k`, or add
one. -/
def jsonSet (m : JsonMap) (k : String) (v : JVal) : JsonMap :=
  match m with
  | [] => [(k, v)]
  | (k', v') :: rest => if k' = k then (k, v) :: rest else (k', v') :: jsonSet rest k v

/-- Go map lookup `m[k]`. -/
def lookupJ (m : JsonMap) (k : String) : Option JVal :=
  match m with
  | [] => none
  | (k', v) :: rest => if k' = k then some v else lookupJ rest k

/-- How many entries of the accumulated JSON object carry key `k`. -/
def countKey : JsonMap → String → Nat
  | [], _ => 0
  | (k', _) :: rest, k => (if k' == k then 1 else 0) + countKey rest k

/-- The standard base64 alphabet. -/
def base64Chars : List Char :=
  "ABCDEFGHIJKLMNOPQRSTUVWXYZabcdefghijklmnopqrstuvwxyz0123456789+/".data

/-- One base64 digit. -/
def base64Char (n : Nat) : Char :=
  base64Chars.getD n '='

/-- Go `base64.StdEncoding.EncodeToString` over byte values. -/
def base64Encode : List Nat → List Char
  | [] => []
  | [a] => [base64Char (a / 4), base64Char (a % 4 * 16), '=', '=']
  | [a, b] => [base64Char (a / 4), base64Char (a % 4 * 16 + b / 16), base64Char (b % 16 * 4), '=']
  | a :: b :: c :: rest =>
    base64Char (a / 4) :: base64Char (a % 4 * 16 + b / 16) ::
      base64Char (b % 16 * 4 + c / 64) :: base64Char (c % 64) :: base64Encode rest

/-- The command-line options the assembler consults (the Go struct
`params`; output-side flags are handled separately by the renderer). -/
structure Params where
  json : Bool := false
  form : Bool := false
  useStdin : Bool := false
  basicAuth : String := ""
  method : String := ""
deriving Repr

/-- The mutable request accumulator (the Go struct `request`); the URL
is represented by the only component the assembler touches, its raw
query string. -/
structure Request where
  rawQuery : String := ""
  method : String := ""
  header : Header := []
  urlValues : Values := []
  form : Values := []
  jsonObj : JsonMap := []
deriving Repr

/-- Go `request.httpHeader` (items with separator `:`). -/
def httpHeader (req : Request) (key val : String) : Request :=
  { req with header := headerAdd req.header key val }

/-- Go `request.urlParam` (items with separator `==`). -/
def urlParam (req : Request) (key val : String) : Request :=
  { req with urlValues := addToAssoc req.urlValues key val }

/-- Go `request.dataString` (items with separator `=`): a JSON field in
JSON mode, a form field otherwise. -/
def dataString (p : Params) (req : Request) (key val : String) : Request :=
  if p.json then { req with jsonObj := jsonSet req.jsonObj key (.str val) }
  else { req with form := addToAssoc req.form key val }

/-- Go `request.jsonOther` (items with separator `:=`): requires JSON
mode and a valid JSON value, stored as raw JSON. -/
def jsonOther (p : Params) (req : Request) (key val : String) : Except String Request :=
  if !p.json then .error "cannot specify non-string key unless --json is specified"
  else if !jsonValid val then .error ("invalid JSON in key " ++ key)
  else .ok { req with jsonObj := jsonSet req.jsonObj key (.raw val) }

/-- The files available to `=@` and `:=@` items: an explicit model of the
file system read by `ioutil.ReadFile`. -/
abbrev FileSystem := String → Option String

/-- Go `request.dataStringFile` (items with separator `=@`): read the
file and hand its contents to `dataString`.  The second component logs
the file read. -/
def dataStringFile (fs : FileSystem) (p : Params) (req : Request) (key val : String) :
    Except String Request × List String :=
  match fs val with
  | none => (.error ("open " ++ val ++ ": no such file or directory"), [val])
  | some data => (.ok (dataString p req key data), [val])

/-- Go `request.jsonOtherFile` (items with separator `:=@`): read the
file and hand its contents to `jsonOther`. -/
def jsonOtherFile (fs : FileSystem) (p : Params) (req : Request) (key val : String) :
    Except String Request × List String :=
  match fs val with
  | none => (.error ("open " ++ val ++ ": no such file or directory"), [val])
  | some data => (jsonOther p req key data, [val])

/-- Go `request.addKeyVal`: dispatch one request item through the
`sepFuncs` table; unknown separators (only `@` can reach here) are
rejected.  The second component logs the files read. -/
def addKeyVal (fs : FileSystem) (p : Params) (req : Request) (kv : KeyVal) :
    Except String Request × List String :=
  match kv.sep with
  | ":" => (.ok (httpHeader req kv.key kv.val), [])
  | "==" => (.ok (urlParam req kv.key kv.val), [])
  | "=" => (.ok (dataString p req kv.key kv.val), [])
  | "=@" => dataStringFile fs p req kv.key kv.val
  | ":=" => (jsonOther p req kv.key kv.val, [])
  | ":=@" => jsonOtherFile fs p req kv.key kv.val
  | _ => (.error ("key value type separator " ++ kv.sep ++ " not yet recognized"), [])

/-- The token-application loop of Go `newRequest`: apply the items in
order, stopping at the first error; the log accumulates the files
read. -/
def applyTokens (fs : FileSystem) (p : Params) (req : Request) :
    List KeyVal → Except String Request × List String
  | [] => (.ok req, [])
  | kv :: rest =>
    match addKeyVal fs p req kv with
    | (.error e, log) => (.error e, log)
    | (.ok req', log) =>
      let r := applyTokens fs p req' rest
      (r.1, log ++ r.2)

/-- The fresh accumulator Go `newRequest` starts from. -/
def initReq (rawQuery method : String) : Request :=
  { rawQuery := rawQuery, method := method, header := [], urlValues := [],
    form := [], jsonObj := [] }

/-- The value of the basic-auth Authorization header. -/
def authHeaderValue (basicAuth : String) : String :=
  "Basic " ++ String.mk (base64Encode (strBytes basicAuth))

/-- The basic-auth step of Go `newRequest`: set the Authorization header
when `-a` was given. -/
def authApplied (p : Params) (req : Request) : Request :=
  if p.basicAuth != "" then
    { req with header := headerSet req.header "Authorization" (authHeaderValue p.basicAuth) }
  else req

/-- The post-processing tail of Go `newRequest`: basic auth, then the
JSON-mode default Content-Type (set only when none is present). -/
def finishRequest (p : Params) (req : Request) : Request :=
  if p.json && headerGet (authApplied p req).header "Content-Type" == "" then
    { authApplied p req with
        header := headerSet (authApplied p req).header "Content-Type" "application/json" }
  else authApplied p req

/-- Go `newRequest` after argument parsing: apply all items, reject the
stdin/body-field conflict, then apply basic auth and the JSON-mode
default Content-Type.  The second component logs the files read. -/
def newRequest (fs : FileSystem) (p : Params) (rawQuery : String) (kvs : List KeyVal) :
    Except String Request × List String :=
  match applyTokens fs p (initReq rawQuery p.method) kvs with
  | (.error e, log) => (.error e, log)
  | (.ok req, log) =>
    if p.useStdin && (!req.form.isEmpty || !req.jsonObj.isEmpty) then
      (.error "cannot read body from stdin when form or JSON body is specified", log)
    else
      (.ok (finishRequest p req), log)

/-- Go `json.Compact` as applied to stored raw messages when the object
is marshalled: insignificant whitespace removed (raw values were
validated on entry, so the fallback branch is unreachable). -/
def jsonCompact (s : String) : String :=
  match parseJson s with
  | some v => printCompact v
  | none => s

/-- Lower-case hexadecimal digit. -/
def lowerHexDigit (n : Nat) : Char :=
  if n < 10 then Char.ofNat (48 + n) else Char.ofNat (87 + n)

/-- Go `encoding/json` string escaping of one character (standard
escapes, `\uXXXX` for control characters, HTML-safe escaping of `<`,
`>` and `&`). -/
def jsonEscapeChar (c : Char) : List Char :=
  if c = '"' then ['\\', '"']
  else if c = '\\' then ['\\', '\\']
  else if c = '\n' then ['\\', 'n']
  else if c = '\r' then ['\\', 'r']
  else if c = '\t' then ['\\', 't']
  else if c.toNat < 32 then ['\\', 'u', '0', '0', lowerHexDigit (c.toNat / 16), lowerHexDigit (c.toNat % 16)]
  else if c = '<' then ['\\', 'u', '0', '0', '3', 'c']
  else if c = '>' then ['\\', 'u', '0', '0', '3', 'e']
  else if c = '&' then ['\\', 'u', '0', '0', '2', '6']
  else [c]

/-- Go `encoding/json` marshalling of a string. -/
def jsonQuote (s : String) : String :=
  "\"" ++ String.mk (s.data.flatMap jsonEscapeChar) ++ "\""

/-- Go `json.Marshal` of the accumulated JSON object: keys sorted,
string fields quoted, raw-message fields compacted. -/
def jsonMarshalObj (m : JsonMap) : String :=
  let entries := (m.map (fun e => (e.1, [match e.2 with
    | .str s => jsonQuote s
    | .raw s => jsonCompact s]))).foldr insertSortedKey []
  "\x7b" ++
    String.intercalate ","
      (entries.flatMap (fun kv => kv.2.map (fun v => jsonQuote kv.1 ++ ":" ++ v))) ++
    "\x7d"

/-- The finalised outbound request Go `request.do` hands to the HTTP
client (the network call itself is the external collaborator). -/
structure FinalRequest where
  rawQuery : String
  method : String
  header : Header
  body : String
  contentLength : Nat
deriving Repr

/-- Go `request.do` up to the network call: merge accumulated query
parameters into the raw query string, pick the body (form, JSON object,
or stdin for body-carrying methods) and set the form Content-Type. -/
def doRequest (req : Request) (stdin : Option String) : FinalRequest :=
  let rawQuery :=
    if !req.urlValues.isEmpty then
      (if req.rawQuery != "" then req.rawQuery ++ "&" else "") ++ valuesEncode req.urlValues
    else req.rawQuery
  let hb :=
    if !req.form.isEmpty then
      (headerSet req.header "Content-Type" "application/x-www-form-urlencoded",
        valuesEncode req.form)
    else if !req.jsonObj.isEmpty then
      (req.header, jsonMarshalObj req.jsonObj)
    else
      match stdin with
      | some s => if req.method != "GET" && req.method != "HEAD" then (req.header, s) else (req.header, "")
      | none => (req.header, "")
  { rawQuery := rawQuery, method := req.method, header := hb.1,
    body := hb.2, contentLength := (strBytes hb.2).length }

/-- Build and finalise in one step (the flow of Go `main0`): `none` when
`newRequest` rejects the invocation. -/
def buildAndSend (fs : FileSystem) (p : Params) (rawQuery : String) (kvs : List KeyVal)
    (stdin : Option String) : Option FinalRequest :=
  match newRequest fs p rawQuery kvs with
  | (.ok req, _) => some (doRequest req stdin)
  | (.error _, _) => none

example :
    buildAndSend (fun _ => none) { method := "POST" } ""
      [⟨"Content-Type", ":", "application/foobar"⟩, ⟨"a", "=", "b"⟩] none
      = some { rawQuery := "", method := "POST",
               header := [("Content-Type", ["application/x-www-form-urlencoded"])],
               body := "a=b", contentLength := 3 } := rfl
example :
    (buildAndSend (fun _ => none) { json := true, method := "POST" } ""
      [⟨"Content-Type", ":", "application/foobar"⟩, ⟨"j1", "=", "123"⟩] none).map
      (fun r => (headerGet r.header "Content-Type", r.body))
      = some ("application/foobar", "\x7b\"j1\":\"123\"\x7d") := rfl
example :
    newRequest (fun name => if name = "f.txt" then some "hello" else none)
      { useStdin := true, method := "POST" } "" [⟨"a", "=@", "f.txt"⟩]
      = (.error "cannot read body from stdin when form or JSON body is specified", ["f.txt"]) := rfl

/-- Media-type token characters (letters, digits and the RFC specials
also allowed in header field names). -/
def isMimeTokenChar (c : Char) : Bool :=
  validHeaderFieldByte c

/-- ASCII whitespace as trimmed around a media type. -/
def isSpaceChar (c : Char) : Bool :=
  c = ' ' || c = '\t' || c = '\n' || c = '\r'

/-- Trim leading and trailing whitespace from a character list. -/
def trimWsCL (cs : List Char) : List Char :=
  ((cs.dropWhile isSpaceChar).reverse.dropWhile isSpaceChar).reverse

/-- Lower-case one ASCII letter. -/
def lowerChar (c : Char) : Char :=
  if 'A' ≤ c && c ≤ 'Z' then Char.ofNat (c.toNat + 32) else c

/-- Modelled from the spec: the renderer parses the Content-Type
response header's media type, ignoring parameters such as charset
(`mime.ParseMediaType` is standard-library code outside this
repository).  Returns the lower-cased `type/subtype`, or `none` when the
header is malformed (the renderer then warns and falls through to raw
copying). -/
def mediaTypeOf (ct : String) : Option String :=
  let mt := (trimWsCL (ct.data.takeWhile (fun c => c != ';'))).map lowerChar
  let t := mt.takeWhile (fun c => c != '/')
  match mt.drop t.length with
  | '/' :: sub =>
    if !t.isEmpty && !sub.isEmpty && t.all isMimeTokenChar && sub.all isMimeTokenChar
    then some (String.mk mt) else none
  | _ => none

/-- Modelled from the spec: `rjson.Indent` (library code outside this
repository) — re-indent the JSON body with empty prefix and tab indent,
failing on bodies that do not parse as JSON. -/
def rjsonIndent (body : String) : Option String :=
  (parseJson body).map (printVal 0)

/-- The trailing-newline fix-up of Go `showResponse`: append one newline
when the indented data is non-empty and does not already end with
one. -/
def ensureTrailingNewline (s : String) : String :=
  match s.data.getLast? with
  | some c => if c != '\n' then s ++ "\n" else s
  | none => s

/-- The body-rendering path of Go `showResponse` (status/header printing
and the `-B` switch are orthogonal and omitted): a response whose
media type is exactly `application/json` is re-indented unless raw mode
is on; everything else, including bodies that fail to re-indent, is
copied through unmodified. -/
def renderBody (raw : Bool) (ctype : String) (body : String) : String :=
  let isJSONResp := ctype != "" && mediaTypeOf ctype == some "application/json"
  if !isJSONResp || raw then body
  else
    match rjsonIndent body with
    | none => body
    | some data => ensureTrailingNewline data

example : mediaTypeOf "application/json; charset=utf-8" = some "application/json" := rfl
example : mediaTypeOf "Application/JSON" = some "application/json" := rfl
example : mediaTypeOf "" = none := rfl
example : renderBody false "application/json" " \x7b\"a\": [1, 2]\x7d\n\n"
    = "\x7b\n\t\"a\": [\n\t\t1,\n\t\t2\n\t]\n\x7d\n" := rfl
example : renderBody true "application/json" " \x7b\"a\":1\x7d " = " \x7b\"a\":1\x7d " := rfl
example : renderBody false "text/plain" "x" = "x" := rfl
example : renderBody false "application/json" "not json" = "not json" := rfl

mutual

/-- Well-formedness of the number literals inside a JSON value: every
stored number raw text is non-empty and uses number characters only
(true of everything the parser produces; keeps the printed value from
ending in whitespace). -/
def numWF : JsonVal → Bool
  | .null => true
  | .bool _ => true
  | .num raw => !raw.data.isEmpty && raw.data.all isNumChar
  | .str _ => true
  | .arr xs => numWFList xs
  | .obj ms => numWFMembers ms

/-- `numWF` over array elements. -/
def numWFList : JsonList → Bool
  | .nil => true
  | .cons v rest => numWF v && numWFList rest

/-- `numWF` over object members. -/
def numWFMembers : JsonMembers → Bool
  | .nil => true
  | .cons _ v rest => numWF v && numWFMembers rest

end

/-- The rendered text ends with exactly one trailing newline. -/
def endsWithOneNewline (s : String) : Prop :=
  s.data.getLast? = some '\n' ∧ s.data.dropLast.getLast? ≠ some '\n'

/-- First-match characterisation of `List.find?`: the found element
satisfies the predicate, and every earlier candidate fails it. -/
theorem find?_first {α : Type} (p : α → Bool) :
    ∀ (l : List α) (a : α), l.find? p = some a →
      p a = true ∧ ∃ i : Nat, l.get? i = some a ∧
        ∀ (j : Nat) (b : α), j < i → l.get? j = some b → p b = false := by
  intro l
  induction l with
  | nil => intro a h; simp [List.find?] at h
  | cons x xs ih =>
    intro a h
    cases hx : p x with
    | true =>
      rw [List.find?_cons_of_pos _ hx] at h
      obtain rfl : x = a := by injection h
      refine ⟨hx, 0, rfl, ?_⟩
      intro j b hj _
      omega
    | false =>
      rw [List.find?_cons_of_neg _ (by simp [hx])] at h
      obtain ⟨hpa, i, hi, hj⟩ := ih a h
      refine ⟨hpa, i + 1, by simpa using hi, ?_⟩
      intro j b hji hjb
      cases j with
      | zero =>
        simp only [List.get?_cons_zero, Option.some.injEq] at hjb
        subst hjb
        exact hx
      | succ j' => exact hj j' b (by omega) (by simpa using hjb)

/-- Claim C3: token parsing tests the suffix at each non-escaped
position against the separator candidates in the fixed order `:=@`,
`:=`, `:`, `==`, `=@`, `=`, `@`, and the first (leftmost position,
most-specific candidate) match determines the separator; in particular
`k:=@v` parses with separator `:=@` and `k==v` with separator `==`. -/
theorem claim_C3_separator_order :
    parseKeyVal "k:=@v" = .ok ⟨"k", ":=@", "v"⟩ ∧
    parseKeyVal "k==v" = .ok ⟨"k", "==", "v"⟩ ∧
    separators = [":=@".data, ":=".data, ":".data, "==".data, "=@".data, "=".data, "@".data] ∧
    ∀ (cs sep : List Char), findSep cs = some sep →
      sep.isPrefixOf cs = true ∧
      ∃ i : Nat, separators.get? i = some sep ∧
        ∀ (j : Nat) (t : List Char), j < i → separators.get? j = some t →
          t.isPrefixOf cs = false := by
  refine ⟨rfl, rfl, rfl, ?_⟩
  intro cs sep h
  exact find?_first _ separators sep h

theorem claim_C3_separator_order_witness :
    (List.isPrefixOf ":=".data ":=x".data) = true :=
  (claim_C3_separator_order.2.2.2 ":=x".data ":=".data rfl).1

/-- Whenever the scanning loop succeeds, the matched separator followed
by the verbatim value is a suffix decomposition of the remaining
input. -/
theorem parseKeyValAux_decomp :
    ∀ (l key : List Char) (b : Bool) (kv : KeyVal),
      parseKeyValAux key b l = .ok kv →
      ∃ pre, l = pre ++ (kv.sep.data ++ kv.val.data) := by
  intro l
  induction l with
  | nil => intro key b kv h; simp [parseKeyValAux] at h
  | cons c rest ih =>
    intro key b kv h
    simp only [parseKeyValAux] at h
    split at h
    · obtain ⟨pre, hp⟩ := ih _ _ _ h
      exact ⟨c :: pre, by simp [hp]⟩
    · split at h
      · obtain ⟨pre, hp⟩ := ih _ _ _ h
        exact ⟨c :: pre, by simp [hp]⟩
      · split at h
        next sep heq =>
          split at h
          · exact absurd h (by simp)
          · have hkv : kv =
                ⟨String.mk key, String.mk sep, String.mk ((c :: rest).drop sep.length)⟩ := by
              injection h with h'
              exact h'.symm
            subst hkv
            simp only [findSep] at heq
            have hpre' := List.find?_some heq
            have hpre : sep.isPrefixOf (c :: rest) = true := hpre'
            obtain ⟨t, ht⟩ := List.isPrefixOf_iff_prefix.mp hpre
            refine ⟨[], ?_⟩
            simp only [List.nil_append]
            rw [← ht, List.drop_left]
        next heq =>
          obtain ⟨pre, hp⟩ := ih _ _ _ h
          exact ⟨c :: pre, by simp [hp]⟩

/-- Claim C9: a non-escaped backslash copies the following character
literally into the key and excludes it from separator matching
(`a\:b=c` parses as key `a:b`, separator `=`, value `c`), and the value
portion after the matched separator is taken verbatim: separator plus
value always form a verbatim suffix of the parsed token. -/
theorem claim_C9_backslash_escape :
    parseKeyVal "a\\:b=c" = .ok ⟨"a:b", "=", "c"⟩ ∧
    ∀ (s : String) (kv : KeyVal), parseKeyVal s = .ok kv →
      (kv.sep.data ++ kv.val.data).isSuffixOf s.data = true := by
  refine ⟨rfl, ?_⟩
  intro s kv h
  obtain ⟨pre, hp⟩ := parseKeyValAux_decomp s.data [] false kv h
  exact List.isSuffixOf_iff_suffix.mpr ⟨pre, hp.symm⟩

theorem claim_C9_backslash_escape_witness :
    (("=" : String).data ++ ("y" : String).data).isSuffixOf ("x=y" : String).data = true :=
  claim_C9_backslash_escape.2 "x=y" ⟨"x", "=", "y"⟩ rfl

/-- Claim C2 fails as stated: the bare `@` separator (the unsupported
form-file item) is not a DataString, JsonValue or file variant of
those, yet it also switches the inferred method to POST
(`isDataSendingSep` trims the trailing `@` and then accepts the empty
remainder). -/
theorem claim_C2_counterexample :
    inferMethod "" [⟨"a", "@", "b"⟩] = "POST" ∧
    ("@" : String) ∉ (["=", ":=", "=@", ":=@"] : List String) :=
  ⟨rfl, by decide⟩

/-- The method-inference fold either keeps a non-empty method or turns
an empty one into POST exactly when some item has a data-sending
separator. -/
theorem inferMethod_foldl_eq (kvs : List KeyVal) :
    ∀ m : String,
      kvs.foldl (fun m kv => if isDataSendingSep kv.sep && m == "" then "POST" else m) m =
        if m == "" && kvs.any (fun kv => isDataSendingSep kv.sep) then "POST" else m := by
  induction kvs with
  | nil => intro m; simp
  | cons kv rest ih =>
    intro m
    rw [List.foldl_cons, ih]
    by_cases hm : m = ""
    · subst hm
      cases hd : isDataSendingSep kv.sep
      · simp [hd]
      · simp [hd]
    · have hm' : (m == "") = false := beq_eq_false_iff_ne.mpr hm
      simp [hm']

/-- With no explicit method, inference yields POST when some item is
data-sending and GET otherwise. -/
theorem inferMethod_empty (kvs : List KeyVal) :
    inferMethod "" kvs =
      if kvs.any (fun kv => isDataSendingSep kv.sep) then "POST" else "GET" := by
  cases ha : kvs.any (fun kv => isDataSendingSep kv.sep) <;>
    simp only [inferMethod, inferMethod_foldl_eq, ha] <;> decide

/-- Separators drawn from the parser's candidate list split into the
data-sending ones (`:=@`, `:=`, `=@`, `=` and the bare `@`) and the
header/query ones (`:`, `==`). -/
theorem isDataSendingSep_mem (s : String)
    (h : s ∈ ([":=@", ":=", ":", "==", "=@", "=", "@"] : List String)) :
    (isDataSendingSep s = true ↔ s ∈ ([":=@", ":=", "=@", "=", "@"] : List String)) ∧
    (isDataSendingSep s = false ↔ s ∈ ([":", "=="] : List String)) := by
  fin_cases h <;> exact ⟨by decide, by decide⟩

/-- Claim C2 amended: with no explicit method, the inferred method is
POST exactly when some token has a `=`, `:=`, `=@`, `:=@` or bare `@`
separator (the unsupported form-file separator also counts as
data-sending), and GET exactly when every token is a header (`:`) or
query (`==`) item; an explicitly supplied method is never changed. -/
theorem claim_C2_amended (kvs : List KeyVal)
    (hsep : ∀ kv ∈ kvs, kv.sep ∈ ([":=@", ":=", ":", "==", "=@", "=", "@"] : List String)) :
    (inferMethod "" kvs = "POST" ↔
      ∃ kv ∈ kvs, kv.sep ∈ ([":=@", ":=", "=@", "=", "@"] : List String)) ∧
    (inferMethod "" kvs = "GET" ↔
      ∀ kv ∈ kvs, kv.sep ∈ ([":", "=="] : List String)) ∧
    ∀ m : String, m ≠ "" → inferMethod m kvs = m := by
  have hiff : (kvs.any (fun kv => isDataSendingSep kv.sep) = true) ↔
      ∃ kv ∈ kvs, kv.sep ∈ ([":=@", ":=", "=@", "=", "@"] : List String) := by
    rw [List.any_eq_true]
    constructor
    · rintro ⟨kv, hmem, hd⟩
      exact ⟨kv, hmem, ((isDataSendingSep_mem kv.sep (hsep kv hmem)).1).mp hd⟩
    · rintro ⟨kv, hmem, hin⟩
      exact ⟨kv, hmem, ((isDataSendingSep_mem kv.sep (hsep kv hmem)).1).mpr hin⟩
  refine ⟨?_, ?_, ?_⟩
  · rw [inferMethod_empty]
    cases ha : kvs.any (fun kv => isDataSendingSep kv.sep)
    · rw [if_neg (by simp)]
      constructor
      · intro h; exact absurd h (by decide)
      · intro hex
        rw [← hiff] at hex
        rw [ha] at hex
        exact absurd hex (by decide)
    · rw [if_pos (by simp)]
      exact ⟨fun _ => hiff.mp ha, fun _ => rfl⟩
  · rw [inferMethod_empty]
    cases ha : kvs.any (fun kv => isDataSendingSep kv.sep)
    · rw [if_neg (by simp)]
      refine ⟨fun _ => ?_, fun _ => rfl⟩
      intro kv hmem
      refine ((isDataSendingSep_mem kv.sep (hsep kv hmem)).2).mp ?_
      cases hd : isDataSendingSep kv.sep
      · rfl
      · have hany : kvs.any (fun kv => isDataSendingSep kv.sep) = true :=
          List.any_eq_true.mpr ⟨kv, hmem, hd⟩
        rw [hany] at ha
        exact absurd ha (by decide)
    · rw [if_pos (by simp)]
      constructor
      · intro h; exact absurd h (by decide)
      · intro hall
        obtain ⟨kv, hmem, hd⟩ := List.any_eq_true.mp ha
        have := ((isDataSendingSep_mem kv.sep (hsep kv hmem)).2).mpr (hall kv hmem)
        rw [hd] at this
        exact absurd this (by decide)
  · intro m hm
    have hm' : (m == "") = false := beq_eq_false_iff_ne.mpr hm
    simp only [inferMethod, inferMethod_foldl_eq, hm']
    simp [hm']

theorem claim_C2_amended_witness :
    inferMethod "PUT" [⟨"a", "=", "b"⟩] = "PUT" :=
  (claim_C2_amended [⟨"a", "=", "b"⟩] (by decide)).2.2 "PUT" (by decide)

/-- Setting a key makes lookup of that key return exactly the new
value. -/
theorem lookupAssoc_setAssoc_same :
    ∀ (h : List (String × List String)) (k v : String),
      lookupAssoc (setAssoc h k v) k = [v] := by
  intro h k v
  induction h with
  | nil => simp [setAssoc, lookupAssoc]
  | cons e rest ih =>
    obtain ⟨k', vs⟩ := e
    by_cases hk : k' = k
    · subst hk; simp [setAssoc, lookupAssoc]
    · simp [setAssoc, lookupAssoc, hk, ih]

/-- Setting one key leaves lookup of any other key unchanged. -/
theorem lookupAssoc_setAssoc_other :
    ∀ (h : List (String × List String)) (k1 k2 v : String), k1 ≠ k2 →
      lookupAssoc (setAssoc h k1 v) k2 = lookupAssoc h k2 := by
  intro h k1 k2 v hne
  induction h with
  | nil => simp [setAssoc, lookupAssoc, hne]
  | cons e rest ih =>
    obtain ⟨k', vs⟩ := e
    by_cases hk : k' = k1
    · subst hk
      simp [setAssoc, lookupAssoc, hne, ih]
    · simp only [setAssoc, if_neg hk]
      by_cases hk2 : k' = k2
      · subst hk2; simp [lookupAssoc]
      · simp [lookupAssoc, hk2, ih]

/-- Appending a value for a key appends it to that key's slice. -/
theorem lookupAssoc_addToAssoc_same :
    ∀ (h : List (String × List String)) (k v : String),
      lookupAssoc (addToAssoc h k v) k = lookupAssoc h k ++ [v] := by
  intro h k v
  induction h with
  | nil => simp [addToAssoc, lookupAssoc]
  | cons e rest ih =>
    obtain ⟨k', vs⟩ := e
    by_cases hk : k' = k
    · subst hk; simp [addToAssoc, lookupAssoc]
    · simp [addToAssoc, lookupAssoc, hk, ih]

/-- `Header.Set` followed by `Header.Get` of the same key yields the set
value. -/
theorem headerGet_headerSet_same (h : Header) (k v : String) :
    headerGet (headerSet h k v) k = v := by
  simp [headerGet, headerSet, lookupAssoc_setAssoc_same]

/-- `Header.Set` of one key does not change `Header.Get` of a key with a
different canonical form. -/
theorem headerGet_headerSet_other (h : Header) (k1 k2 v : String)
    (hne : canonicalMIMEHeaderKey k1 ≠ canonicalMIMEHeaderKey k2) :
    headerGet (headerSet h k1 v) k2 = headerGet h k2 := by
  simp [headerGet, headerSet, lookupAssoc_setAssoc_other _ _ _ _ hne]

/-- The final header is the accumulated one, except that a non-empty
form body forces Content-Type to the form encoding. -/
theorem doRequest_header (req : Request) (stdin : Option String) :
    (doRequest req stdin).header =
      if req.form.isEmpty then req.header
      else headerSet req.header "Content-Type" "application/x-www-form-urlencoded" := by
  cases hf : req.form.isEmpty
  · simp [doRequest, hf]
  · cases hj : req.jsonObj.isEmpty
    · simp [doRequest, hf, hj]
    · cases stdin with
      | none => simp [doRequest, hf, hj]
      | some s => simp [doRequest, hf, hj, apply_ite]

/-- The final query string keeps the original raw query untouched and
appends the encoded accumulated parameters after it. -/
theorem doRequest_rawQuery (req : Request) (stdin : Option String) :
    (doRequest req stdin).rawQuery =
      if req.urlValues.isEmpty then req.rawQuery
      else (if req.rawQuery != "" then req.rawQuery ++ "&" else "") ++
        valuesEncode req.urlValues := by
  cases hv : req.urlValues.isEmpty <;> simp [doRequest, hv]

/-- Claim C1 fails as stated: with JSON mode off, an explicit
Content-Type header token is overwritten by form-body finalisation,
which unconditionally sets `application/x-www-form-urlencoded`. -/
theorem claim_C1_counterexample :
    (buildAndSend (fun _ => none) { method := "POST" } ""
        [⟨"Content-Type", ":", "application/foobar"⟩, ⟨"a", "=", "b"⟩] none).map
      (fun r => headerGet r.header "Content-Type")
      = some "application/x-www-form-urlencoded" ∧
    ("application/x-www-form-urlencoded" : String) ≠ "application/foobar" :=
  ⟨rfl, by decide⟩

/-- Basic auth changes neither the Content-Type header nor any other
request field. -/
theorem authApplied_ct (p : Params) (r : Request) :
    headerGet (authApplied p r).header "Content-Type"
      = headerGet r.header "Content-Type" := by
  unfold authApplied
  split
  · exact headerGet_headerSet_other _ _ _ _ (by decide)
  · rfl

/-- Basic auth leaves the form map unchanged. -/
theorem authApplied_form (p : Params) (r : Request) :
    (authApplied p r).form = r.form := by
  unfold authApplied
  split <;> rfl

/-- When a Content-Type is already set, post-processing reduces to the
basic-auth step: the JSON-mode default is not applied. -/
theorem finishRequest_of_ct (p : Params) (r : Request)
    (hne : headerGet r.header "Content-Type" ≠ "") :
    finishRequest p r = authApplied p r := by
  unfold finishRequest
  have hcond : (p.json && headerGet (authApplied p r).header "Content-Type" == "") = false := by
    rw [authApplied_ct]
    simp [beq_eq_false_iff_ne.mpr hne]
  rw [hcond]
  simp

/-- Claim C1 amended: an explicit Content-Type header survives request
building (the JSON-mode default `application/json` is applied only when
no Content-Type is set) and survives finalisation when the form map is
empty (in particular for a JSON body), but form-body finalisation
overwrites it with `application/x-www-form-urlencoded`
unconditionally. -/
theorem claim_C1_amended (fs : FileSystem) (p : Params) (q : String) (kvs : List KeyVal)
    (r req' : Request) (log log' : List String) (ct : String) (stdin : Option String)
    (happ : applyTokens fs p (initReq q p.method) kvs = (.ok r, log))
    (hct : headerGet r.header "Content-Type" = ct)
    (hne : ct ≠ "")
    (hnew : newRequest fs p q kvs = (.ok req', log')) :
    headerGet req'.header "Content-Type" = ct ∧
    req'.form = r.form ∧
    (r.form.isEmpty = true → headerGet (doRequest req' stdin).header "Content-Type" = ct) ∧
    (r.form.isEmpty = false → headerGet (doRequest req' stdin).header "Content-Type" =
      "application/x-www-form-urlencoded") := by
  simp only [newRequest, happ] at hnew
  have hner : headerGet r.header "Content-Type" ≠ "" := by rw [hct]; exact hne
  by_cases hcond : (p.useStdin && (!r.form.isEmpty || !r.jsonObj.isEmpty)) = true
  · rw [if_pos hcond] at hnew
    exact absurd (congrArg Prod.fst hnew) (by simp)
  · rw [if_neg hcond] at hnew
    have hreq : req' = finishRequest p r := by
      have := congrArg Prod.fst hnew
      simpa using this.symm
    subst hreq
    rw [finishRequest_of_ct p r hner]
    refine ⟨?_, authApplied_form p r, ?_, ?_⟩
    · rw [authApplied_ct]; exact hct
    · intro hform
      rw [doRequest_header, authApplied_form, hform, if_pos rfl, authApplied_ct]
      exact hct
    · intro hform
      rw [doRequest_header, authApplied_form, hform]
      simp only [Bool.false_eq_true, if_false]
      exact headerGet_headerSet_same _ _ _

theorem claim_C1_amended_witness :
    headerGet
      ((doRequest
        { rawQuery := "", method := "POST",
          header := [("Content-Type", ["application/foobar"])], urlValues := [],
          form := [], jsonObj := [("j1", JVal.str "123")] } none).header) "Content-Type"
      = "application/foobar" :=
  (claim_C1_amended (fun _ => none) { json := true, method := "POST" } ""
    [⟨"Content-Type", ":", "application/foobar"⟩, ⟨"j1", "=", "123"⟩]
    { rawQuery := "", method := "POST",
      header := [("Content-Type", ["application/foobar"])], urlValues := [],
      form := [], jsonObj := [("j1", JVal.str "123")] }
    { rawQuery := "", method := "POST",
      header := [("Content-Type", ["application/foobar"])], urlValues := [],
      form := [], jsonObj := [("j1", JVal.str "123")] }
    [] [] "application/foobar" none rfl rfl (by decide) rfl).2.2.1 rfl

/-- Claim C5: with a non-empty original query string and accumulated
`==` parameters, the final query string is the original one kept
verbatim (hence a prefix: nothing is replaced or reordered), followed by
`&` and the form-encoded accumulated parameters; with no accumulated
parameters the query string is untouched. -/
theorem claim_C5_query_append (req : Request) (stdin : Option String) :
    (req.rawQuery ≠ "" → req.urlValues ≠ [] →
      (doRequest req stdin).rawQuery = req.rawQuery ++ "&" ++ valuesEncode req.urlValues ∧
      req.rawQuery.data.isPrefixOf (doRequest req stdin).rawQuery.data = true) ∧
    (req.urlValues = [] → (doRequest req stdin).rawQuery = req.rawQuery) := by
  constructor
  · intro hq hv
    have hv' : req.urlValues.isEmpty = false := by
      cases h : req.urlValues with
      | nil => exact absurd h hv
      | cons a l => rfl
    have hq' : (req.rawQuery != "") = true := by
      simp [bne, beq_eq_false_iff_ne.mpr hq]
    have hmain : (doRequest req stdin).rawQuery
        = req.rawQuery ++ "&" ++ valuesEncode req.urlValues := by
      rw [doRequest_rawQuery, hv']
      simp [hq']
    refine ⟨hmain, ?_⟩
    rw [hmain]
    refine List.isPrefixOf_iff_prefix.mpr ?_
    refine ⟨("&" : String).data ++ (valuesEncode req.urlValues).data, ?_⟩
    simp [String.data_append]
  · intro hv
    rw [doRequest_rawQuery]
    simp [hv]

theorem claim_C5_query_append_witness :
    (doRequest { rawQuery := "a=1", urlValues := [("b", ["2"])] } none).rawQuery
      = "a=1" ++ "&" ++ valuesEncode [("b", ["2"])] :=
  ((claim_C5_query_append { rawQuery := "a=1", urlValues := [("b", ["2"])] } none).1
    (by decide) (by decide)).1

/-- Claim C4 fails in its general part: the encoded form body does not
keep token-application order; `url.Values.Encode` sorts the keys, so the
tokens `b=2` `a=1` produce the body `a=1&b=2`, not `b=2&a=1`. -/
theorem claim_C4_counterexample :
    (buildAndSend (fun _ => none)
        { method := inferMethod "" [⟨"b", "=", "2"⟩, ⟨"a", "=", "1"⟩] } ""
        [⟨"b", "=", "2"⟩, ⟨"a", "=", "1"⟩] none).map (fun r => r.body)
      = some "a=1&b=2" ∧
    ("a=1&b=2" : String) ≠ "b=2&a=1" :=
  ⟨rfl, by decide⟩

/-- Claim C4 amended: with JSON mode off, the tokens `j1=123` `j2=`
`j2=another` infer method POST and produce the form-encoded body
`j1=123&j2=&j2=another` with Content-Type
`application/x-www-form-urlencoded`; in general the encoded body lists
keys in sorted (lexicographic) order, while repeated values of one key
keep their application order. -/
theorem claim_C4_amended :
    inferMethod "" [⟨"j1", "=", "123"⟩, ⟨"j2", "=", ""⟩, ⟨"j2", "=", "another"⟩] = "POST" ∧
    (buildAndSend (fun _ => none) { method := "POST" } ""
        [⟨"j1", "=", "123"⟩, ⟨"j2", "=", ""⟩, ⟨"j2", "=", "another"⟩] none).map
        (fun r => (r.method, r.body, headerGet r.header "Content-Type"))
      = some ("POST", "j1=123&j2=&j2=another", "application/x-www-form-urlencoded") ∧
    ∀ (vs : Values) (k v : String),
      lookupAssoc (addToAssoc vs k v) k = lookupAssoc vs k ++ [v] :=
  ⟨rfl, rfl, lookupAssoc_addToAssoc_same⟩

/-- Claim C7 fails in its second part: the stdin/body-field conflict is
rejected with the configuration error, but only after all request items
have been applied; here the file `f.txt` named by a `=@` item has
already been read (it appears in the read log) when the error is
returned. -/
theorem claim_C7_counterexample :
    newRequest (fun name => if name = "f.txt" then some "hello" else none)
        { useStdin := true, method := "POST" } "" [⟨"a", "=@", "f.txt"⟩]
      = (.error "cannot read body from stdin when form or JSON body is specified",
         ["f.txt"]) :=
  rfl

/-- Claim C7 amended: an invocation that reads the body from stdin and
also populates form or JSON fields fails with the configuration error,
but the rejection happens after all tokens are applied: the files read
while applying them (the log) are exactly the files read by the failing
invocation. -/
theorem claim_C7_amended (fs : FileSystem) (p : Params) (q : String) (kvs : List KeyVal)
    (r : Request) (log : List String)
    (happ : applyTokens fs p (initReq q p.method) kvs = (.ok r, log))
    (hstdin : p.useStdin = true)
    (hbody : r.form ≠ [] ∨ r.jsonObj ≠ []) :
    newRequest fs p q kvs =
      (.error "cannot read body from stdin when form or JSON body is specified", log) := by
  have hcond : (p.useStdin && (!r.form.isEmpty || !r.jsonObj.isEmpty)) = true := by
    rw [hstdin]
    rcases hbody with hb | hb
    · cases hf : r.form with
      | nil => exact absurd hf hb
      | cons a l => simp [hf]
    · cases hj : r.jsonObj with
      | nil => exact absurd hj hb
      | cons a l => simp [hj]
  simp [newRequest, happ, hcond]

theorem claim_C7_amended_witness :
    newRequest (fun _ => none) { useStdin := true, method := "POST" } "" [⟨"a", "=", "b"⟩]
      = (.error "cannot read body from stdin when form or JSON body is specified", []) :=
  claim_C7_amended (fun _ => none) { useStdin := true, method := "POST" } "" [⟨"a", "=", "b"⟩]
    { rawQuery := "", method := "POST", header := [], urlValues := [],
      form := [("a", ["b"])], jsonObj := [] } []
    rfl rfl (Or.inl (by decide))

/-- In JSON mode a single applied item never touches the form map. -/
theorem addKeyVal_form_of_json (fs : FileSystem) (p : Params) (req req' : Request)
    (kv : KeyVal) (log : List String) (hj : p.json = true)
    (h : addKeyVal fs p req kv = (.ok req', log)) :
    req'.form = req.form := by
  simp only [addKeyVal] at h
  split at h
  · injection h with h1 h2
    injection h1 with h1
    subst h1
    rfl
  · injection h with h1 h2
    injection h1 with h1
    subst h1
    rfl
  · injection h with h1 h2
    injection h1 with h1
    subst h1
    simp [dataString, hj]
  · simp only [dataStringFile] at h
    split at h
    · exact absurd (congrArg Prod.fst h) (by simp)
    · injection h with h1 h2
      injection h1 with h1
      subst h1
      simp [dataString, hj]
  · simp only [jsonOther, hj] at h
    split at h
    · exact absurd (congrArg Prod.fst h) (by simp)
    · injection h with h1 h2
      split at h1
      · exact absurd h1 (by simp)
      · injection h1 with h1
        subst h1
        rfl
  · simp only [jsonOtherFile] at h
    split at h
    · exact absurd (congrArg Prod.fst h) (by simp)
    · simp only [jsonOther, hj] at h
      split at h
      · exact absurd (congrArg Prod.fst h) (by simp)
      · injection h with h1 h2
        split at h1
        · exact absurd h1 (by simp)
        · injection h1 with h1
          subst h1
          rfl
  · exact absurd (congrArg Prod.fst h) (by simp)

/-- Outside JSON mode a single applied item never touches the JSON
object. -/
theorem addKeyVal_jsonObj_of_form (fs : FileSystem) (p : Params) (req req' : Request)
    (kv : KeyVal) (log : List String) (hj : p.json = false)
    (h : addKeyVal fs p req kv = (.ok req', log)) :
    req'.jsonObj = req.jsonObj := by
  simp only [addKeyVal] at h
  split at h
  · injection h with h1 h2
    injection h1 with h1
    subst h1
    rfl
  · injection h with h1 h2
    injection h1 with h1
    subst h1
    rfl
  · injection h with h1 h2
    injection h1 with h1
    subst h1
    simp [dataString, hj]
  · simp only [dataStringFile] at h
    split at h
    · exact absurd (congrArg Prod.fst h) (by simp)
    · injection h with h1 h2
      injection h1 with h1
      subst h1
      simp [dataString, hj]
  · simp only [jsonOther, hj] at h
    exact absurd (congrArg Prod.fst h) (by simp)
  · simp only [jsonOtherFile] at h
    split at h
    · exact absurd (congrArg Prod.fst h) (by simp)
    · simp only [jsonOther, hj] at h
      exact absurd (congrArg Prod.fst h) (by simp)
  · exact absurd (congrArg Prod.fst h) (by simp)

/-- In JSON mode the token-application loop never touches the form
map. -/
theorem applyTokens_form_of_json (fs : FileSystem) (p : Params) (hj : p.json = true) :
    ∀ (kvs : List KeyVal) (req r : Request),
      (applyTokens fs p req kvs).1 = .ok r → r.form = req.form := by
  intro kvs
  induction kvs with
  | nil =>
    intro req r h
    simp only [applyTokens] at h
    injection h with h
    subst h
    rfl
  | cons kv rest ih =>
    intro req r h
    simp only [applyTokens] at h
    split at h
    · simp at h
    next req' log1 heq =>
      simp only at h
      have := ih req' r h
      rw [this, addKeyVal_form_of_json fs p req req' kv log1 hj heq]

/-- Outside JSON mode the token-application loop never touches the JSON
object. -/
theorem applyTokens_jsonObj_of_form (fs : FileSystem) (p : Params) (hj : p.json = false) :
    ∀ (kvs : List KeyVal) (req r : Request),
      (applyTokens fs p req kvs).1 = .ok r → r.jsonObj = req.jsonObj := by
  intro kvs
  induction kvs with
  | nil =>
    intro req r h
    simp only [applyTokens] at h
    injection h with h
    subst h
    rfl
  | cons kv rest ih =>
    intro req r h
    simp only [applyTokens] at h
    split at h
    · simp at h
    next req' log1 heq =>
      simp only at h
      have := ih req' r h
      rw [this, addKeyVal_jsonObj_of_form fs p req req' kv log1 hj heq]

/-- Claim C8: starting from the fresh accumulator, after applying any
prefix of the request items (so at every intermediate state, and in
particular at the state handed to finalisation) the form map and the
JSON object are never both non-empty: the JSON-mode flag routes every
data item to exactly one of them. -/
theorem claim_C8_body_mode_invariant (fs : FileSystem) (p : Params) (q : String)
    (kvs : List KeyVal) (n : Nat) (r : Request)
    (happ : (applyTokens fs p (initReq q p.method) (kvs.take n)).1 = .ok r) :
    ¬(r.form ≠ [] ∧ r.jsonObj ≠ []) := by
  rintro ⟨hform, hjson⟩
  cases hj : p.json
  · exact hjson (applyTokens_jsonObj_of_form fs p hj (kvs.take n) (initReq q p.method) r happ)
  · exact hform (applyTokens_form_of_json fs p hj (kvs.take n) (initReq q p.method) r happ)

theorem claim_C8_body_mode_invariant_witness :
    ¬((({ rawQuery := "", method := "GET", header := [], urlValues := [],
          form := [("a", ["b"])], jsonObj := [] } : Request).form ≠ []) ∧
      (({ rawQuery := "", method := "GET", header := [], urlValues := [],
          form := [("a", ["b"])], jsonObj := [] } : Request).jsonObj ≠ [])) :=
  claim_C8_body_mode_invariant (fun _ => none) { method := "GET" } "" [⟨"a", "=", "b"⟩] 1
    { rawQuery := "", method := "GET", header := [], urlValues := [],
      form := [("a", ["b"])], jsonObj := [] } rfl

/-- Go map assignment: lookup after `jsonSet` of the same key returns
the new value. -/
theorem lookupJ_jsonSet :
    ∀ (m : JsonMap) (k : String) (v : JVal), lookupJ (jsonSet m k v) k = some v := by
  intro m k v
  induction m with
  | nil => simp [jsonSet, lookupJ]
  | cons e rest ih =>
    obtain ⟨k', v'⟩ := e
    by_cases hk : k' = k
    · subst hk; simp [jsonSet, lookupJ]
    · simp [jsonSet, lookupJ, hk, ih]

/-- `jsonSet` leaves exactly one entry for the assigned key (it both
inserts a missing key and replaces an existing one in place). -/
theorem countKey_jsonSet :
    ∀ (m : JsonMap) (k : String) (v : JVal),
      countKey (jsonSet m k v) k = max (countKey m k) 1 := by
  intro m k v
  induction m with
  | nil => simp [jsonSet, countKey]
  | cons e rest ih =>
    obtain ⟨k', v'⟩ := e
    by_cases hk : k' = k
    · subst hk
      simp only [jsonSet, if_pos rfl, countKey, beq_self_eq_true, if_true]
      omega
    · have hk' : (k' == k) = false := beq_eq_false_iff_ne.mpr hk
      simp only [jsonSet, if_neg hk, countKey, hk', Bool.false_eq_true, if_false, ih]
      omega

/-- Claim C10: with JSON mode on, two `=` (or two `:=`) items with the
same key leave only the later value in the JSON object — one member per
distinct key — while header, query and form fields accumulate both
values for a repeated key in application order. -/
theorem claim_C10_last_write_wins (p pq : Params) (req : Request) (k v1 v2 : String)
    (hp : p.json = true) (hq : pq.json = false)
    (hv1 : jsonValid v1 = true) (hv2 : jsonValid v2 = true) :
    (lookupJ ((dataString p (dataString p req k v1) k v2).jsonObj) k = some (JVal.str v2) ∧
     countKey ((dataString p (dataString p req k v1) k v2).jsonObj) k
       = max (countKey req.jsonObj k) 1) ∧
    (∃ r1 r2 : Request, jsonOther p req k v1 = .ok r1 ∧ jsonOther p r1 k v2 = .ok r2 ∧
      lookupJ r2.jsonObj k = some (JVal.raw v2) ∧
      countKey r2.jsonObj k = max (countKey req.jsonObj k) 1) ∧
    lookupAssoc ((httpHeader (httpHeader req k v1) k v2).header) (canonicalMIMEHeaderKey k)
      = lookupAssoc req.header (canonicalMIMEHeaderKey k) ++ [v1, v2] ∧
    lookupAssoc ((urlParam (urlParam req k v1) k v2).urlValues) k
      = lookupAssoc req.urlValues k ++ [v1, v2] ∧
    lookupAssoc ((dataString pq (dataString pq req k v1) k v2).form) k
      = lookupAssoc req.form k ++ [v1, v2] := by
  refine ⟨⟨?_, ?_⟩, ?_, ?_, ?_, ?_⟩
  · simp only [dataString, hp, if_pos rfl]
    exact lookupJ_jsonSet _ _ _
  · have hobj : (dataString p (dataString p req k v1) k v2).jsonObj
        = jsonSet (jsonSet req.jsonObj k (JVal.str v1)) k (JVal.str v2) := by
      simp [dataString, hp]
    rw [hobj, countKey_jsonSet, countKey_jsonSet]
    omega
  · refine ⟨{ req with jsonObj := jsonSet req.jsonObj k (JVal.raw v1) },
      { req with jsonObj := jsonSet (jsonSet req.jsonObj k (JVal.raw v1)) k (JVal.raw v2) },
      ?_, ?_, ?_, ?_⟩
    · simp [jsonOther, hp, hv1]
    · simp [jsonOther, hp, hv2]
    · exact lookupJ_jsonSet _ _ _
    · show countKey (jsonSet (jsonSet req.jsonObj k (JVal.raw v1)) k (JVal.raw v2)) k = _
      rw [countKey_jsonSet, countKey_jsonSet]
      omega
  · simp only [httpHeader, headerAdd]
    rw [lookupAssoc_addToAssoc_same, lookupAssoc_addToAssoc_same]
    simp
  · simp only [urlParam]
    rw [lookupAssoc_addToAssoc_same, lookupAssoc_addToAssoc_same]
    simp
  · simp only [dataString, hq, Bool.false_eq_true, if_false]
    rw [lookupAssoc_addToAssoc_same, lookupAssoc_addToAssoc_same]
    simp

theorem claim_C10_last_write_wins_witness :
    lookupJ ((dataString { json := true }
        (dataString { json := true } {} "k" "1") "k" "2").jsonObj) "k"
      = some (JVal.str "2") :=
  ((claim_C10_last_write_wins { json := true } {} {} "k" "1" "2" rfl rfl rfl rfl).1).1

/-- A non-empty character list has a last element, which is a member. -/
theorem getLast?_spec : ∀ (l : List Char), l ≠ [] → ∃ c, l.getLast? = some c ∧ c ∈ l := by
  intro l h
  induction l with
  | nil => exact absurd rfl h
  | cons a rest ih =>
    cases hr : rest with
    | nil =>
      subst hr
      exact ⟨a, rfl, by simp⟩
    | cons b t =>
      subst hr
      obtain ⟨c, hc, hm⟩ := ih (by simp)
      exact ⟨c, by rw [List.getLast?_cons_cons]; exact hc, by simp [hm]⟩

/-- A valid JSON number literal is non-empty. -/
theorem validNum_ne_nil (cs : List Char) (h : validNum cs = true) : cs ≠ [] := by
  intro e
  subst e
  simp [validNum] at h

/-- Everything `takeWhile` keeps satisfies the predicate. -/
theorem takeWhile_all (p : Char → Bool) (l : List Char) : (l.takeWhile p).all p = true := by
  rw [List.all_eq_true]
  intro x hx
  exact List.mem_takeWhile_imp hx

/-- A non-empty list is not `isEmpty`. -/
theorem isEmpty_false_of_ne_nil {l : List Char} (h : l ≠ []) : l.isEmpty = false := by
  cases l with
  | nil => exact absurd rfl h
  | cons a t => rfl

/-- Every value the parser produces satisfies `numWF`: number literals
come from `takeWhile isNumChar` guarded by `validNum`. -/
theorem parse_numWF :
    ∀ fuel : Nat,
      (∀ cs v rest, parseVal fuel cs = some (v, rest) → numWF v = true) ∧
      (∀ cs xs rest, parseElems fuel cs = some (xs, rest) → numWFList xs = true) ∧
      (∀ cs ms rest, parseMembers fuel cs = some (ms, rest) → numWFMembers ms = true) := by
  intro fuel
  induction fuel with
  | zero =>
    refine ⟨?_, ?_, ?_⟩ <;> intro cs v rest h <;>
      simp [parseVal, parseElems, parseMembers] at h
  | succ n ih =>
    obtain ⟨ihV, ihE, ihM⟩ := ih
    refine ⟨?_, ?_, ?_⟩
    · intro cs v rest h
      simp only [parseVal] at h
      split at h
      · injection h with h
        injection h with h1 h2
        subst h1
        rfl
      · split at h
        · injection h with h
          injection h with h1 h2
          subst h1
          rfl
        · split at h
          · injection h with h
            injection h with h1 h2
            subst h1
            rfl
          · split at h
            · simp at h
            · split at h
              · split at h
                · injection h with h
                  injection h with h1 h2
                  subst h1
                  rfl
                · simp at h
              · split at h
                · split at h
                  · injection h with h
                    injection h with h1 h2
                    subst h1
                    rfl
                  · split at h
                    next xs rest' heq =>
                      injection h with h
                      injection h with h1 h2
                      subst h1
                      exact ihE _ _ _ heq
                    next heq =>
                      simp at h
                · split at h
                  · split at h
                    · injection h with h
                      injection h with h1 h2
                      subst h1
                      rfl
                    · split at h
                      next ms rest' heq =>
                        injection h with h
                        injection h with h1 h2
                        subst h1
                        exact ihM _ _ _ heq
                      next heq =>
                        simp at h
                  · split at h
                    next hvn =>
                      injection h with h
                      injection h with h1 h2
                      subst h1
                      have hne := validNum_ne_nil _ hvn
                      have hie := isEmpty_false_of_ne_nil hne
                      simp only [numWF, hie, Bool.not_false, Bool.true_and]
                      exact takeWhile_all _ _
                    next hvn =>
                      simp at h
    · intro cs xs rest h
      simp only [parseElems] at h
      split at h
      next heq => simp at h
      next v' rest1 heq =>
        split at h
        next heq2 =>
          split at h
          next xs' rest'' heq3 =>
            injection h with h
            injection h with h1 h2
            subst h1
            simp only [numWFList, Bool.and_eq_true]
            exact ⟨ihV _ _ _ heq, ihE _ _ _ heq3⟩
          next heq3 => simp at h
        next heq2 =>
          injection h with h
          injection h with h1 h2
          subst h1
          simp only [numWFList, Bool.and_eq_true]
          exact ⟨ihV _ _ _ heq, trivial⟩
        next heq2 => simp at h
    · intro cs ms rest h
      simp only [parseMembers] at h
      split at h
      next key rest1 heq =>
        split at h
        next heq2 => simp at h
        next key' rest2 heq2 =>
          split at h
          next rest3 heq3 =>
            split at h
            next heq4 => simp at h
            next v' rest4 heq4 =>
              split at h
              next rest5 heq5 =>
                split at h
                next ms' rest6 heq6 =>
                  injection h with h
                  injection h with h1 h2
                  subst h1
                  simp only [numWFMembers, Bool.and_eq_true]
                  exact ⟨ihV _ _ _ heq4, ihM _ _ _ heq6⟩
                next heq6 => simp at h
              next rest5 heq5 =>
                injection h with h
                injection h with h1 h2
                subst h1
                simp only [numWFMembers, Bool.and_eq_true]
                exact ⟨ihV _ _ _ heq4, trivial⟩
              next heq5 => simp at h
          next heq3 => simp at h
      next heq => simp at h

/-- The tab-indented printing of a well-formed JSON value never ends in
a newline (composites end with their closing bracket, literals and
strings with a fixed character, numbers with a number character). -/
theorem printVal_last (v : JsonVal) (d : Nat) (h : numWF v = true) :
    ∃ c, (printVal d v).data.getLast? = some c ∧ c ≠ '\n' := by
  cases v with
  | null => exact ⟨'l', rfl, by decide⟩
  | bool b =>
    cases b
    · exact ⟨'e', rfl, by decide⟩
    · exact ⟨'e', rfl, by decide⟩
  | num raw =>
    simp only [numWF, Bool.and_eq_true, Bool.not_eq_true'] at h
    obtain ⟨h1, h2⟩ := h
    have hne : raw.data ≠ [] := by
      intro e
      rw [e] at h1
      simp at h1
    obtain ⟨c, hc, hm⟩ := getLast?_spec raw.data hne
    refine ⟨c, hc, ?_⟩
    have hnum := List.all_eq_true.mp h2 c hm
    intro e
    subst e
    exact absurd hnum (by decide)
  | str raw =>
    refine ⟨'"', ?_, by decide⟩
    show ("\"" ++ raw ++ "\"").data.getLast? = some '"'
    rw [String.data_append, List.getLast?_append_of_ne_nil _ (by decide)]
    rfl
  | arr xs =>
    cases xs with
    | nil => exact ⟨']', rfl, by decide⟩
    | cons x rest =>
      refine ⟨']', ?_, by decide⟩
      show ("[" ++ nlIndent (d + 1) ++ printVal (d + 1) x ++ printElems (d + 1) rest ++
        nlIndent d ++ "]").data.getLast? = some ']'
      rw [String.data_append, List.getLast?_append_of_ne_nil _ (by decide)]
      rfl
  | obj ms =>
    cases ms with
    | nil => exact ⟨Char.ofNat 125, rfl, by decide⟩
    | cons k v rest =>
      refine ⟨Char.ofNat 125, ?_, by decide⟩
      show ("\x7b" ++ nlIndent (d + 1) ++ "\"" ++ k ++ "\": " ++ printVal (d + 1) v ++
        printMembers (d + 1) rest ++ nlIndent d ++ "\x7d").data.getLast? = some (Char.ofNat 125)
      rw [String.data_append, List.getLast?_append_of_ne_nil _ (by decide)]
      rfl

/-- When the indented data does not already end in a newline, the
fix-up appends exactly one. -/
theorem ensureTrailingNewline_of_ne (s : String) (c : Char)
    (h : s.data.getLast? = some c) (hc : c ≠ '\n') :
    ensureTrailingNewline s = s ++ "\n" ∧ endsWithOneNewline (s ++ "\n") := by
  refine ⟨?_, ?_, ?_⟩
  · simp only [ensureTrailingNewline, h]
    have hb : (c != '\n') = true := by simp [bne, beq_eq_false_iff_ne.mpr hc]
    rw [hb]
    rfl
  · rw [String.data_append, List.getLast?_append_of_ne_nil _ (by decide)]
    rfl
  · rw [String.data_append, show ("\n" : String).data = ['\n'] from rfl,
      List.dropLast_concat, h]
    simp [hc]

/-- Every successfully parsed JSON document is well-formed. -/
theorem parseJson_numWF (body : String) (v : JsonVal) (hp : parseJson body = some v) :
    numWF v = true := by
  simp only [parseJson] at hp
  split at hp
  next v' rest heq =>
    split at hp
    · injection hp with hp
      subst hp
      exact (parse_numWF _).1 _ _ _ heq
    · simp at hp
  next heq => simp at hp

/-- On a JSON response (media type exactly `application/json`, raw mode
off) whose body parses, the renderer emits the re-indented value with
the trailing-newline fix-up. -/
theorem renderBody_json (ct body : String) (v : JsonVal)
    (hct : mediaTypeOf ct = some "application/json")
    (hp : parseJson body = some v) :
    renderBody false ct body = ensureTrailingNewline (printVal 0 v) := by
  have hctne : (ct != "") = true := by
    have : ct ≠ "" := by
      intro e
      rw [e] at hct
      exact absurd hct (by decide)
    simp [bne, beq_eq_false_iff_ne.mpr this]
  simp [renderBody, rjsonIndent, hp, hct, hctne]

/-- Claim C6: for a response whose Content-Type media type is exactly
`application/json`, with raw mode off and a body that parses as JSON,
the rendered output is the body re-indented with tab indentation plus
exactly one trailing newline, and it depends only on the parsed value —
so the whitespace of the original body (trailing newlines included) is
irrelevant. -/
theorem claim_C6_json_rendering (ct body : String) (v : JsonVal)
    (hct : mediaTypeOf ct = some "application/json")
    (hp : parseJson body = some v) :
    renderBody false ct body = printVal 0 v ++ "\n" ∧
    endsWithOneNewline (renderBody false ct body) ∧
    ∀ body' : String, parseJson body' = some v →
      renderBody false ct body' = renderBody false ct body := by
  have hwf := parseJson_numWF body v hp
  obtain ⟨c, hc, hcne⟩ := printVal_last v 0 hwf
  obtain ⟨he, hone⟩ := ensureTrailingNewline_of_ne _ c hc hcne
  have hr := renderBody_json ct body v hct hp
  refine ⟨by rw [hr, he], by rw [hr, he]; exact hone, ?_⟩
  intro body' hp'
  rw [renderBody_json ct body' v hct hp', hr]

theorem claim_C6_json_rendering_witness :
    renderBody false "application/json; charset=utf-8" " \x7b\"a\": [1, 2]\x7d\n\n"
      = printVal 0 (.obj (.cons "a" (.arr (.cons (.num "1") (.cons (.num "2") .nil))) .nil))
        ++ "\n" :=
  (claim_C6_json_rendering "application/json; charset=utf-8" " \x7b\"a\": [1, 2]\x7d\n\n"
    (.obj (.cons "a" (.arr (.cons (.num "1") (.cons (.num "2") .nil))) .nil)) rfl rfl).1

theorem claim_C4_amended_witness :
    lookupAssoc (addToAssoc [] "k" "v") "k" = lookupAssoc [] "k" ++ ["v"] :=
  claim_C4_amended.2.2 [] "k" "v"
